import Mathlib

/-!
Verification of the temporal path engine of dynetx
(src/dynetx/algorithms/paths.py): window resolution, temporal DAG
construction, time-respecting path enumeration and path classification.

Modelling choices (shallow embedding of the Python source):
* timestamps are integers (Python ints), node identifiers are naturals;
* the time-evolving graph store (an external collaborator of the module)
  is a neighbor function N : Nat -> Int -> List Nat, together with the
  sorted list of snapshot ids that temporal_snapshots_ids returns;
* the string-encoded DAG vertices of the source (raw node u versus the
  timestamped copy string "n_tid") are the sum type Vertex below, which
  reproduces the source behaviour of the isinstance / split("_") tests
  for any non-string node type;
* Python dicts used as ordered sets (neighbors, active, sources,
  targets) are lists with first-insertion order and key deduplication
  (insertKey / dedupKeys);
* exceptions are an explicit error type: IndexError on ids[0] for an
  empty timestamp list, the ValueError of the window check, the
  ValueError of list.index(True), and the TypeError raised by
  annotate_paths when it iterates over None.
-/

namespace DynetxPaths

/-- Errors the Python module can raise. -/
inductive Err
  | indexError
  | invalidWindow
  | trueNotInList
  | typeError
deriving DecidableEq, Repr

/-- Python min over a non-empty list: fold of min over the tail starting
from the first element (default value is never used by the source, which
guards non-emptiness). -/
def pyMin {α : Type} [LinearOrder α] [Inhabited α] : List α → α
  | [] => default
  | h :: t => t.foldl min h

/-- Python max over a non-empty list. -/
def pyMax {α : Type} [LinearOrder α] [Inhabited α] : List α → α
  | [] => default
  | h :: t => t.foldl max h

/-- Python ids[-1] on a non-empty list (default is never used: the
source fails on an empty list before reaching it). -/
def pyLast : List Int → Int
  | [] => 0
  | [x] => x
  | _ :: x :: t => pyLast (x :: t)

/-- Python list.index(True) over a list of booleans: index of the first
True, or the ValueError case (none). -/
def indexOfTrue : List Bool → Option Nat
  | [] => none
  | b :: t => if b then some 0 else (indexOfTrue t).map (· + 1)

/-- Python slice l[a:b] where a is a non-negative index and b an
arbitrary integer (negative b counts from the end, both bounds clamp). -/
def pySlice {α : Type} (l : List α) (a : Nat) (b : Int) : List α :=
  let n : Int := l.length
  let b1 : Int := if b < 0 then b + n else b
  (l.take (min b1 n).toNat).drop a

/-- Python dict key insertion: append the key if absent, keep the list
unchanged (and the original position) if present. -/
def insertKey {α : Type} [DecidableEq α] (acc : List α) (x : α) : List α :=
  if x ∈ acc then acc else acc ++ [x]

/-- Keys of a Python dict built by successive insertion: deduplication
keeping the first occurrence of each key. -/
def dedupKeys {α : Type} [DecidableEq α] (l : List α) : List α :=
  l.foldl insertKey []

/-- Window resolution of __temporal_dag (paths.py lines 33-51): default
the missing bounds from ids[0] and ids[-1], validate the window, then
compute ids[start:end] where start is the index of the first timestamp
that is at least the requested start and end is either the raw end
timestamp (when it equals ids[-1]) or the index of the first timestamp
exceeding the requested end.  windowSlice is the part after the
validation check (lines 49-51). -/
def windowSlice (ids : List Int) (s e : Int) : Except Err (List Int) :=
  match indexOfTrue (ids.map (fun i => decide (s ≤ i))) with
  | none => Except.error Err.trueNotInList
  | some sIdx =>
    if e = pyLast ids then Except.ok (pySlice ids sIdx e)
    else
      match indexOfTrue (ids.map (fun i => decide (e < i))) with
      | none => Except.error Err.trueNotInList
      | some eIdx => Except.ok (pySlice ids sIdx (eIdx : Int))

/-- Lines 33-46 of __temporal_dag: ids[0] access, defaulting of the
missing bounds from ids[0] and ids[-1], and the window validation,
followed by windowSlice. -/
def resolveWindow (ids : List Int) (s? e? : Option Int) : Except Err (List Int) :=
  match ids with
  | [] => Except.error Err.indexError
  | h :: _ =>
    let e := match e? with | none => pyLast ids | some x => x
    let s := match s? with | none => h | some x => x
    if s < pyMin ids ∨ s > e ∨ e > pyMax ids ∨ s > pyMax ids then
      Except.error Err.invalidWindow
    else windowSlice ids s e

/-- DAG vertex: the raw, not-yet-expanded root node, or a timestamped
node copy "n_tid". -/
inductive Vertex
  | root (w : Nat)
  | copy (n : Nat) (t : Int)
deriving DecidableEq, Repr

instance : Inhabited Vertex := ⟨Vertex.root 0⟩

/-- Underlying node of a vertex: str(an).split("_")[0] cast back to the
node type. -/
def nodeOf : Vertex → Nat
  | Vertex.root w => w
  | Vertex.copy n _ => n

/-- Timestamp of a copy vertex (the root carries none; 0 is never used
because enumerated DAG paths consist of copies only). -/
def timeOf : Vertex → Int
  | Vertex.root _ => 0
  | Vertex.copy _ t => t

/-- Bool test for the raw root: isinstance(an, node_type) together with
the no-underscore check of the source. -/
def isRootV : Vertex → Bool
  | Vertex.root _ => true
  | Vertex.copy _ _ => false

/-- Relabeling an = f"{an}_{tid}" applied to the raw root. -/
def relabelV (tid : Int) : Vertex → Vertex
  | Vertex.root w => Vertex.copy w tid
  | Vertex.copy n t => Vertex.copy n t

/-- Accumulator of one timestamp sweep of __temporal_dag: the growing
DAG edge list, sources, targets dicts and the to_add / to_remove lists. -/
structure StepAcc where
  edges : List (Vertex × Vertex)
  sources : List Vertex
  targets : List Vertex
  toAdd : List Vertex
  toRemove : List Vertex
deriving DecidableEq, Repr

/-- Builder state between timestamps: the DAG edge list (the raw root
node added by DG.add_node(u) stays isolated, so edges determine every
enumerated path), the active frontier dict and the sources / targets
dicts. -/
structure DagState where
  edges : List (Vertex × Vertex)
  active : List Vertex
  sources : List Vertex
  targets : List Vertex
deriving DecidableEq, Repr

/-- Body of the inner loop of __temporal_dag (lines 62-77) for one
active vertex an at timestamp tid: query neighbors (a dict keyed by the
copy strings, hence dedupKeys), record the target hit, mark dead ends
for removal, relabel the raw root into its first copy of this timestamp
and register it as a source, and add one edge and one to_add entry per
neighbor. -/
def stepVertex (u v : Nat) (N : Nat → Int → List Nat) (tid : Int)
    (acc : StepAcc) (an : Vertex) : StepAcc :=
  let nbrs := dedupKeys (N (nodeOf an) tid)
  { edges := acc.edges ++ nbrs.map (fun n =>
      ((if isRootV an ∧ nbrs ≠ [] then relabelV tid an else an), Vertex.copy n tid)),
    sources := if isRootV an ∧ nbrs ≠ [] then insertKey acc.sources (relabelV tid an)
      else acc.sources,
    targets := if v ∈ nbrs then insertKey acc.targets (Vertex.copy v tid) else acc.targets,
    toAdd := acc.toAdd ++ nbrs.map (fun n => Vertex.copy n tid),
    toRemove := if nbrs = [] ∧ an ≠ Vertex.root u then acc.toRemove ++ [an]
      else acc.toRemove }

/-- One timestamp of the forward sweep (lines 59-83): process every
active vertex, then merge to_add into the active dict and delete the
vertices marked for removal. -/
def dagStep (u v : Nat) (N : Nat → Int → List Nat) (tid : Int) (st : DagState) : DagState :=
  let acc := st.active.foldl (stepVertex u v N tid)
    { edges := st.edges, sources := st.sources, targets := st.targets,
      toAdd := [], toRemove := [] }
  { edges := acc.edges, sources := acc.sources, targets := acc.targets,
    active := (acc.toAdd.foldl insertKey st.active).filter
      (fun x => decide (¬ x ∈ acc.toRemove)) }

/-- The sweep over the resolved timestamp sequence. -/
def dagLoop (u v : Nat) (N : Nat → Int → List Nat) : List Int → DagState → DagState
  | [], st => st
  | tid :: rest, st => dagLoop u v N rest (dagStep u v N tid st)

/-- __temporal_dag after window resolution: initial state has the raw
root active and an empty DAG. -/
def temporalDag (u v : Nat) (N : Nat → Int → List Nat) (ids : List Int) : DagState :=
  dagLoop u v N ids { edges := [], active := [Vertex.root u], sources := [], targets := [] }

/-- Adjacency of the DAG edge list, in insertion order. -/
def successors (E : List (Vertex × Vertex)) (x : Vertex) : List Vertex :=
  (E.filter (fun e => decide (e.1 = x))).map (fun e => e.2)

/-- networkx all_simple_paths as a fuel-bounded depth-first search: from
cur, stop on the target, otherwise branch on every successor not on the
current path. -/
def simplePathsAux (E : List (Vertex × Vertex)) :
    Nat → Vertex → Vertex → List Vertex → List (List Vertex)
  | 0, _, _, _ => []
  | Nat.succ fuel, cur, tgt, visited =>
    if cur = tgt then [[cur]]
    else
      ((successors E cur).filter (fun c => decide (¬ c ∈ visited ++ [cur]))).foldl
        (fun acc child =>
          acc ++ (simplePathsAux E fuel child tgt (visited ++ [cur])).map
            (fun q => cur :: q)) []

/-- A timestamped interaction (u, v, t). -/
abbrev Path := List (Nat × Nat × Int)

/-- Translation of a DAG vertex path into interactions (lines 117-123):
each consecutive vertex pair (first, second) yields
(node(first), node(second), timestamp(second)). -/
def pathOfVertices (p : List Vertex) : Path :=
  (p.zip p.tail).map (fun ab => (nodeOf ab.1, nodeOf ab.2, timeOf ab.2))

/-- time_respecting_paths after window resolution (lines 109-124): all
simple DAG paths for every (source, target) pair, translated and
concatenated in pair order. -/
def timeRespectingPathsOn (N : Nat → Int → List Nat) (u v : Nat) (w : List Int) :
    List Path :=
  let st := temporalDag u v N w
  let pairs := st.sources.flatMap (fun s => st.targets.map (fun tg => (s, tg)))
  pairs.foldl (fun acc pr =>
    acc ++ (simplePathsAux st.edges (st.edges.length + 2) pr.1 pr.2 []).map
      pathOfVertices) []

/-- time_respecting_paths(G, u, v, start, end): resolve the window, then
enumerate. -/
def timeRespectingPaths (N : Nat → Int → List Nat) (u v : Nat) (ids : List Int)
    (s? e? : Option Int) : Except Err (List Path) :=
  match resolveWindow ids s? e? with
  | Except.error err => Except.error err
  | Except.ok w => Except.ok (timeRespectingPathsOn N u v w)

/-- path_length: number of interactions. -/
def path_length (p : Path) : Nat := p.length

/-- Arrival timestamp path[-1][-1]. -/
def lastT (p : Path) : Int := (p.getLast!).2.2

/-- path_duration: path[-1][-1] - path[0][-1]. -/
def path_duration (p : Path) : Int := lastT p - (p.head!).2.2

/-- Classification record of annotate_paths. -/
structure Annotated where
  shortest : List Path
  fastest : List Path
  shortest_fastest : List Path
  fastest_shortest : List Path
  foremost : List Path
deriving DecidableEq, Repr

/-- Running state of the single pass of annotate_paths: the three
independent running minima and their lists. -/
structure AnnState where
  shortestVal : Option Nat
  shortestL : List Path
  fastestVal : Option Int
  fastestL : List Path
  reachVal : Option Int
  foremostL : List Path
deriving DecidableEq, Repr

/-- One running-minimum update of annotate_paths (lines 187-203): on a
strictly smaller value reset the list to [path] and update the minimum,
on an equal value append, otherwise keep. -/
def pairStep {α : Type} [LinearOrder α] (f : Path → α)
    (st : Option α × List Path) (p : Path) : Option α × List Path :=
  match st.1 with
  | none => (some (f p), [p])
  | some m =>
    if f p < m then (some (f p), [p])
    else if f p = m then (some m, st.2 ++ [p])
    else st

/-- One iteration of the main loop of annotate_paths: the three
running-minimum updates for length, duration and reach. -/
def annStep (st : AnnState) (p : Path) : AnnState :=
  { shortestVal := (pairStep path_length (st.shortestVal, st.shortestL) p).1,
    shortestL := (pairStep path_length (st.shortestVal, st.shortestL) p).2,
    fastestVal := (pairStep path_duration (st.fastestVal, st.fastestL) p).1,
    fastestL := (pairStep path_duration (st.fastestVal, st.fastestL) p).2,
    reachVal := (pairStep lastT (st.reachVal, st.foremostL) p).1,
    foremostL := (pairStep lastT (st.reachVal, st.foremostL) p).2 }

/-- annotate_paths (lines 153-216).  On an empty input the main loop
never runs, annotated["shortest"] is still None, and the dict
comprehension over it raises TypeError.  The two post-passes build dicts
keyed by tuple(path) (dedupKeys collapses duplicate paths) and keep the
keys whose value equals the minimum of the dict values. -/
def annotate_paths (paths : List Path) : Except Err Annotated :=
  match paths with
  | [] => Except.error Err.typeError
  | p :: t =>
    let st := (p :: t).foldl annStep
      { shortestVal := none, shortestL := [], fastestVal := none, fastestL := [],
        reachVal := none, foremostL := [] }
    let fsKeys := dedupKeys st.shortestL
    let minval1 := pyMin (fsKeys.map path_duration)
    let fastestShortest := fsKeys.filter (fun q => decide (path_duration q = minval1))
    let sfKeys := dedupKeys st.fastestL
    let minval2 := pyMin (sfKeys.map path_length)
    let shortestFastest := sfKeys.filter (fun q => decide (path_length q = minval2))
    Except.ok { shortest := st.shortestL, fastest := st.fastestL,
                shortest_fastest := shortestFastest,
                fastest_shortest := fastestShortest,
                foremost := st.foremostL }

/-- Shape of every edge ever added by the builder: both endpoints are
timestamped copies, the source timestamp does not exceed the target
timestamp, and an edge within a single timestamp can only be the
relabeled root expanding to one of its neighbors. -/
def EdgeShape (u : Nat) (N : Nat → Int → List Nat) (e : Vertex × Vertex) : Prop :=
  ∃ m s n t, e = (Vertex.copy m s, Vertex.copy n t) ∧ s ≤ t ∧
    (s = t → m = u ∧ n ∈ N u t)

/-- Shape of the active frontier before processing the timestamps ids:
the raw root is first and is never removed, every other entry is a copy
stamped strictly before every remaining timestamp. -/
def ActiveOK (u : Nat) (ids : List Int) (A : List Vertex) : Prop :=
  ∃ cs, A = Vertex.root u :: cs ∧
    ∀ x ∈ cs, ∃ n t, x = Vertex.copy n t ∧ ∀ s ∈ ids, t < s

/-- The sources dict holds copies stamped strictly before every
remaining timestamp. -/
def SourcesOK (ids : List Int) (S : List Vertex) : Prop :=
  ∀ x ∈ S, ∃ n t, x = Vertex.copy n t ∧ ∀ s ∈ ids, t < s

/-- A directed cycle: a non-empty vertex sequence whose consecutive
pairs are edges and whose last vertex has an edge back to the first
(a single vertex with a self-loop edge is a cycle). -/
def isCycle (E : List (Vertex × Vertex)) (l : List Vertex) : Bool :=
  match l.head?, l.getLast? with
  | some h, some e =>
    ((l.zip l.tail).all (fun pr => decide (pr ∈ E))) && decide ((e, h) ∈ E)
  | _, _ => false

/-- Integer measure on vertices that strictly increases along every
builder edge when the network has no self-interaction. -/
def measDag (u : Nat) : Vertex → Int
  | Vertex.root _ => 0
  | Vertex.copy n t => 2 * t + (if n = u then 0 else 1)

/-- The undirected scenario network with interactions (A,B,1), (B,C,2),
(A,C,3) on nodes A=0, B=1, C=2: neighbor sets in both directions. -/
def netTriangle : Nat → Int → List Nat := fun a t =>
  if a = 0 ∧ t = 1 then [1] else if a = 1 ∧ t = 1 then [0]
  else if a = 1 ∧ t = 2 then [2] else if a = 2 ∧ t = 2 then [1]
  else if a = 0 ∧ t = 3 then [2] else if a = 2 ∧ t = 3 then [0] else []

/-- Node 0 interacts with node 1 at every timestamp. -/
def netRepeat : Nat → Int → List Nat := fun a _ => if a = 0 then [1] else []

/-- Node 0 has a self-interaction at timestamp 1. -/
def netSelfLoop : Nat → Int → List Nat := fun a t =>
  if a = 0 ∧ t = 1 then [0] else []

/-! Generic lemmas about the dict-as-list helpers. -/

theorem mem_insertKey {α : Type} [DecidableEq α] (acc : List α) (x y : α) :
    y ∈ insertKey acc x ↔ (y ∈ acc ∨ y = x) := by
  by_cases h : x ∈ acc
  · simp only [insertKey, if_pos h]
    constructor
    · exact Or.inl
    · rintro (hy | rfl)
      · exact hy
      · exact h
  · simp [insertKey, if_neg h]

theorem mem_foldl_insertKey {α : Type} [DecidableEq α] :
    ∀ (l acc : List α) (y : α), y ∈ l.foldl insertKey acc ↔ (y ∈ acc ∨ y ∈ l)
  | [], acc, y => by simp
  | x :: t, acc, y => by
    simp only [List.foldl_cons]
    rw [mem_foldl_insertKey t _ y, mem_insertKey]
    simp only [List.mem_cons]
    tauto

theorem nodup_foldl_insertKey {α : Type} [DecidableEq α] :
    ∀ (l acc : List α), acc.Nodup → (l.foldl insertKey acc).Nodup
  | [], _, h => h
  | x :: t, acc, h => by
    simp only [List.foldl_cons]
    apply nodup_foldl_insertKey t
    by_cases hx : x ∈ acc
    · simpa [insertKey, hx]
    · simp [insertKey, hx, List.nodup_append, h]

theorem foldl_insertKey_append {α : Type} [DecidableEq α] :
    ∀ (l acc : List α), ∃ extra, l.foldl insertKey acc = acc ++ extra ∧
      ∀ x ∈ extra, x ∈ l
  | [], acc => ⟨[], by simp⟩
  | x :: t, acc => by
    by_cases hx : x ∈ acc
    · have hs : insertKey acc x = acc := if_pos hx
      obtain ⟨extra, he, hm⟩ := foldl_insertKey_append t acc
      refine ⟨extra, ?_, fun y hy => List.mem_cons_of_mem x (hm y hy)⟩
      rw [List.foldl_cons, hs, he]
    · have hs : insertKey acc x = acc ++ [x] := if_neg hx
      obtain ⟨extra, he, hm⟩ := foldl_insertKey_append t (acc ++ [x])
      refine ⟨x :: extra, ?_, ?_⟩
      · rw [List.foldl_cons, hs, he, List.append_assoc]
        rfl
      · intro y hy
        rcases List.mem_cons.1 hy with rfl | hy
        · exact List.mem_cons_self y t
        · exact List.mem_cons_of_mem x (hm y hy)

theorem mem_dedupKeys {α : Type} [DecidableEq α] (l : List α) (y : α) :
    y ∈ dedupKeys l ↔ y ∈ l := by
  rw [dedupKeys, mem_foldl_insertKey]
  simp

theorem nodup_dedupKeys {α : Type} [DecidableEq α] (l : List α) :
    (dedupKeys l).Nodup :=
  nodup_foldl_insertKey l [] List.nodup_nil

theorem dedupKeys_nil_iff {α : Type} [DecidableEq α] (l : List α) :
    dedupKeys l = [] ↔ l = [] := by
  constructor
  · intro h
    cases l with
    | nil => rfl
    | cons x t =>
      have hx : x ∈ dedupKeys (x :: t) := (mem_dedupKeys _ _).2 (List.mem_cons_self x t)
      rw [h] at hx
      cases hx
  · rintro rfl
    rfl

theorem mem_foldl_append {α β : Type} (f : α → List β) :
    ∀ (l : List α) (init : List β) (x : β),
      x ∈ l.foldl (fun acc a => acc ++ f a) init ↔ (x ∈ init ∨ ∃ a ∈ l, x ∈ f a)
  | [], init, x => by simp
  | a :: t, init, x => by
    simp only [List.foldl_cons]
    rw [mem_foldl_append f t _ x]
    simp only [List.mem_append, List.mem_cons]
    constructor
    · rintro ((h | h) | ⟨b, hb, hx⟩)
      · exact Or.inl h
      · exact Or.inr ⟨a, Or.inl rfl, h⟩
      · exact Or.inr ⟨b, Or.inr hb, hx⟩
    · rintro (h | ⟨b, rfl | hb, hx⟩)
      · exact Or.inl (Or.inl h)
      · exact Or.inl (Or.inr hx)
      · exact Or.inr ⟨b, hb, hx⟩

/-! Lemmas about the Python min / max / last helpers. -/

theorem foldl_min_le_init {α : Type} [LinearOrder α] :
    ∀ (l : List α) (m : α), l.foldl min m ≤ m
  | [], _ => le_refl _
  | h :: t, m => le_trans (foldl_min_le_init t (min m h)) (min_le_left m h)

theorem foldl_min_le_mem {α : Type} [LinearOrder α] :
    ∀ (l : List α) (m x : α), x ∈ l → l.foldl min m ≤ x
  | h :: t, m, x, hx => by
    rcases List.mem_cons.1 hx with rfl | hx
    · exact le_trans (foldl_min_le_init t (min m x)) (min_le_right m x)
    · exact foldl_min_le_mem t (min m h) x hx

theorem foldl_min_mem_or {α : Type} [LinearOrder α] :
    ∀ (l : List α) (m : α), l.foldl min m = m ∨ l.foldl min m ∈ l
  | [], _ => Or.inl rfl
  | h :: t, m => by
    rcases foldl_min_mem_or t (min m h) with he | hm
    · simp only [List.foldl_cons, he]
      rcases min_choice m h with h1 | h1
      · exact Or.inl h1
      · refine Or.inr ?_
        rw [h1]
        exact List.mem_cons_self h t
    · exact Or.inr (List.mem_cons_of_mem h hm)

theorem pyMin_le {α : Type} [LinearOrder α] [Inhabited α] (l : List α) (x : α)
    (hx : x ∈ l) : pyMin l ≤ x := by
  cases l with
  | nil => cases hx
  | cons h t =>
    rcases List.mem_cons.1 hx with rfl | hx
    · exact foldl_min_le_init t x
    · exact foldl_min_le_mem t h x hx

theorem pyMin_mem {α : Type} [LinearOrder α] [Inhabited α] (l : List α)
    (h : l ≠ []) : pyMin l ∈ l := by
  cases l with
  | nil => exact absurd rfl h
  | cons a t =>
    show t.foldl min a ∈ a :: t
    rcases foldl_min_mem_or t a with he | hm
    · rw [he]
      exact List.mem_cons_self a t
    · exact List.mem_cons_of_mem a hm

theorem pyMin_congr {α : Type} [LinearOrder α] [Inhabited α] (l1 l2 : List α)
    (h1 : l1 ≠ []) (h2 : l2 ≠ []) (hmem : ∀ x, x ∈ l1 ↔ x ∈ l2) :
    pyMin l1 = pyMin l2 :=
  le_antisymm (pyMin_le l1 _ ((hmem _).2 (pyMin_mem l2 h2)))
    (pyMin_le l2 _ ((hmem _).1 (pyMin_mem l1 h1)))

theorem foldl_max_init_le {α : Type} [LinearOrder α] :
    ∀ (l : List α) (m : α), m ≤ l.foldl max m
  | [], _ => le_refl _
  | h :: t, m => le_trans (le_max_left m h) (foldl_max_init_le t (max m h))

theorem foldl_max_mem_le {α : Type} [LinearOrder α] :
    ∀ (l : List α) (m x : α), x ∈ l → x ≤ l.foldl max m
  | h :: t, m, x, hx => by
    rcases List.mem_cons.1 hx with rfl | hx
    · exact le_trans (le_max_right m x) (foldl_max_init_le t (max m x))
    · exact foldl_max_mem_le t (max m h) x hx

theorem foldl_max_mem_or {α : Type} [LinearOrder α] :
    ∀ (l : List α) (m : α), l.foldl max m = m ∨ l.foldl max m ∈ l
  | [], _ => Or.inl rfl
  | h :: t, m => by
    rcases foldl_max_mem_or t (max m h) with he | hm
    · simp only [List.foldl_cons, he]
      rcases max_choice m h with h1 | h1
      · exact Or.inl h1
      · refine Or.inr ?_
        rw [h1]
        exact List.mem_cons_self h t
    · exact Or.inr (List.mem_cons_of_mem h hm)

theorem le_pyMax {α : Type} [LinearOrder α] [Inhabited α] (l : List α) (x : α)
    (hx : x ∈ l) : x ≤ pyMax l := by
  cases l with
  | nil => cases hx
  | cons h t =>
    rcases List.mem_cons.1 hx with rfl | hx
    · exact foldl_max_init_le t x
    · exact foldl_max_mem_le t h x hx

theorem pyMax_mem {α : Type} [LinearOrder α] [Inhabited α] (l : List α)
    (h : l ≠ []) : pyMax l ∈ l := by
  cases l with
  | nil => exact absurd rfl h
  | cons a t =>
    show t.foldl max a ∈ a :: t
    rcases foldl_max_mem_or t a with he | hm
    · rw [he]
      exact List.mem_cons_self a t
    · exact List.mem_cons_of_mem a hm

theorem indexOfTrue_some (l : List Bool) (hl : true ∈ l) :
    ∃ k, indexOfTrue l = some k := by
  induction l with
  | nil => cases hl
  | cons b t ih =>
    by_cases hb : b = true
    · exact ⟨0, by simp [indexOfTrue, hb]⟩
    · have hbt : b = false := by cases b <;> simp_all
      have ht : true ∈ t := by
        rcases List.mem_cons.1 hl with h | h
        · exact absurd h.symm hb
        · exact h
      obtain ⟨k, hk⟩ := ih ht
      exact ⟨k + 1, by simp [indexOfTrue, hbt, hk]⟩

theorem pySlice_sublist {α : Type} (l : List α) (a : Nat) (b : Int) :
    (pySlice l a b).Sublist l := by
  unfold pySlice
  exact (List.drop_sublist _ _).trans (List.take_sublist _ _)

/-! The running-minimum fold of annotate_paths computes the argmin
sub-list, in input order. -/

theorem pairStep_fold_some {α : Type} [LinearOrder α] (f : Path → α) :
    ∀ (l : List Path) (m : α) (acc : List Path),
      l.foldl (pairStep f) (some m, acc) =
        (some (l.foldl (fun x p => min x (f p)) m),
         (if l.foldl (fun x p => min x (f p)) m < m then [] else acc) ++
           l.filter (fun p => decide (f p = l.foldl (fun x p => min x (f p)) m)))
  | [], m, acc => by simp
  | p :: t, m, acc => by
    have hM : ∀ m0 : α, t.foldl (fun x p => min x (f p)) m0 ≤ m0 := by
      intro m0
      induction t generalizing m0 with
      | nil => exact le_refl _
      | cons q tq ih => exact le_trans (ih (min m0 (f q))) (min_le_left _ _)
    rcases lt_trichotomy (f p) m with hlt | heq | hgt
    · have hstep : pairStep f (some m, acc) p = (some (f p), [p]) := by
        simp [pairStep, hlt]
      have hmin : min m (f p) = f p := min_eq_right (le_of_lt hlt)
      rw [List.foldl_cons, hstep, pairStep_fold_some f t (f p) [p]]
      have hMle : t.foldl (fun x p => min x (f p)) (f p) ≤ f p := hM (f p)
      simp only [List.foldl_cons, hmin]
      by_cases hc : t.foldl (fun x p => min x (f p)) (f p) < f p
      · have hne : ¬ (f p = t.foldl (fun x p => min x (f p)) (f p)) := by
          intro hcontra
          exact absurd hc (by rw [← hcontra]; exact lt_irrefl _)
        rw [if_pos hc, if_pos (lt_trans hc hlt), List.filter_cons_of_neg (by simpa using hne)]
      · have heq2 : t.foldl (fun x p => min x (f p)) (f p) = f p :=
          le_antisymm hMle (not_lt.1 hc)
        rw [if_neg hc, if_pos (by rw [heq2]; exact hlt),
          List.filter_cons_of_pos (by simp [heq2])]
        simp
    · have hstep : pairStep f (some m, acc) p = (some m, acc ++ [p]) := by
        simp [pairStep, heq, lt_irrefl]
      have hmin : min m (f p) = m := min_eq_left (le_of_eq heq.symm)
      rw [List.foldl_cons, hstep, pairStep_fold_some f t m (acc ++ [p])]
      simp only [List.foldl_cons, hmin]
      by_cases hc : t.foldl (fun x p => min x (f p)) m < m
      · have hne : ¬ (f p = t.foldl (fun x p => min x (f p)) m) := by
          intro hcontra
          rw [heq] at hcontra
          exact absurd hc (by rw [← hcontra]; exact lt_irrefl _)
        rw [if_pos hc, if_pos hc, List.filter_cons_of_neg (by simpa using hne)]
      · have heq2 : t.foldl (fun x p => min x (f p)) m = m :=
          le_antisymm (hM m) (not_lt.1 hc)
        rw [if_neg hc, if_neg hc,
          List.filter_cons_of_pos (by simp [heq2, heq]), List.append_assoc]
        rfl
    · have hstep : pairStep f (some m, acc) p = (some m, acc) := by
        have h1 : ¬ f p < m := not_lt.2 (le_of_lt hgt)
        have h2 : ¬ f p = m := ne_of_gt hgt
        simp [pairStep, h1, h2]
      have hmin : min m (f p) = m := min_eq_left (le_of_lt hgt)
      rw [List.foldl_cons, hstep, pairStep_fold_some f t m acc]
      simp only [List.foldl_cons, hmin]
      have hne : ¬ (f p = t.foldl (fun x p => min x (f p)) m) := by
        intro hcontra
        have : f p ≤ m := hcontra ▸ hM m
        exact absurd hgt (not_lt.2 this)
      rw [List.filter_cons_of_neg (by simpa using hne)]

theorem pairStep_fold_none {α : Type} [LinearOrder α] [Inhabited α] (f : Path → α)
    (p : Path) (t : List Path) :
    (p :: t).foldl (pairStep f) (none, []) =
      (some (pyMin ((p :: t).map f)),
       (p :: t).filter (fun q => decide (f q = pyMin ((p :: t).map f)))) := by
  have hpy : pyMin ((p :: t).map f) = t.foldl (fun x q => min x (f q)) (f p) := by
    show (t.map f).foldl min (f p) = _
    rw [List.foldl_map]
  have hstep : pairStep f ((none : Option α), ([] : List Path)) p = (some (f p), [p]) := rfl
  rw [List.foldl_cons, hstep, pairStep_fold_some f t (f p) [p], hpy]
  have hMle : t.foldl (fun x q => min x (f q)) (f p) ≤ f p := by
    have : pyMin ((p :: t).map f) ≤ f p :=
      pyMin_le _ _ (List.mem_map_of_mem f (List.mem_cons_self p t))
    rwa [hpy] at this
  by_cases hc : t.foldl (fun x q => min x (f q)) (f p) < f p
  · have hne : ¬ (f p = t.foldl (fun x q => min x (f q)) (f p)) := by
      intro hcontra
      exact absurd hc (by rw [← hcontra]; exact lt_irrefl _)
    rw [if_pos hc, List.filter_cons_of_neg (by simpa using hne)]
    simp
  · have heq2 : t.foldl (fun x q => min x (f q)) (f p) = f p :=
      le_antisymm hMle (not_lt.1 hc)
    rw [if_neg hc, List.filter_cons_of_pos (by simp [heq2])]
    simp

/-- The combined loop state projects onto the three independent
running-minimum folds. -/
theorem foldl_annStep_eq :
    ∀ (l : List Path) (sv : Option Nat) (sl : List Path) (fv : Option Int)
      (fl : List Path) (rv : Option Int) (rl : List Path),
      l.foldl annStep ⟨sv, sl, fv, fl, rv, rl⟩ =
        ⟨(l.foldl (pairStep path_length) (sv, sl)).1,
         (l.foldl (pairStep path_length) (sv, sl)).2,
         (l.foldl (pairStep path_duration) (fv, fl)).1,
         (l.foldl (pairStep path_duration) (fv, fl)).2,
         (l.foldl (pairStep lastT) (rv, rl)).1,
         (l.foldl (pairStep lastT) (rv, rl)).2⟩
  | [], sv, sl, fv, fl, rv, rl => rfl
  | p :: t, sv, sl, fv, fl, rv, rl => by
    rw [List.foldl_cons]
    show t.foldl annStep
        ⟨(pairStep path_length (sv, sl) p).1, (pairStep path_length (sv, sl) p).2,
         (pairStep path_duration (fv, fl) p).1, (pairStep path_duration (fv, fl) p).2,
         (pairStep lastT (rv, rl) p).1, (pairStep lastT (rv, rl) p).2⟩ = _
    rw [foldl_annStep_eq t]
    simp only [List.foldl_cons]

/-- The shortest field of annotate_paths on a non-empty input is the
input filtered to the minimum length, in input order (and similarly for
fastest / duration and foremost / arrival). -/
theorem annotate_fields (p : Path) (t : List Path) :
    annotate_paths (p :: t) = Except.ok
      { shortest := (p :: t).filter
          (fun q => decide (path_length q = pyMin ((p :: t).map path_length))),
        fastest := (p :: t).filter
          (fun q => decide (path_duration q = pyMin ((p :: t).map path_duration))),
        shortest_fastest :=
          (dedupKeys ((p :: t).filter
            (fun q => decide (path_duration q = pyMin ((p :: t).map path_duration))))).filter
            (fun q => decide (path_length q = pyMin
              ((dedupKeys ((p :: t).filter
                (fun q => decide (path_duration q = pyMin ((p :: t).map path_duration))))).map
                  path_length))),
        fastest_shortest :=
          (dedupKeys ((p :: t).filter
            (fun q => decide (path_length q = pyMin ((p :: t).map path_length))))).filter
            (fun q => decide (path_duration q = pyMin
              ((dedupKeys ((p :: t).filter
                (fun q => decide (path_length q = pyMin ((p :: t).map path_length))))).map
                  path_duration))),
        foremost := (p :: t).filter
          (fun q => decide (lastT q = pyMin ((p :: t).map lastT))) } := by
  show Except.ok _ = _
  rw [foldl_annStep_eq, pairStep_fold_none path_length, pairStep_fold_none path_duration,
    pairStep_fold_none lastT]

/-! Invariants of the temporal DAG builder. -/

theorem stepfold_edges_mem (u v : Nat) (N : Nat → Int → List Nat) (tid : Int) :
    ∀ (A : List Vertex) (acc : StepAcc) (e : Vertex × Vertex),
      e ∈ (A.foldl (stepVertex u v N tid) acc).edges →
      e ∈ acc.edges ∨ ∃ an n, an ∈ A ∧ n ∈ dedupKeys (N (nodeOf an) tid) ∧
        e = ((if isRootV an ∧ dedupKeys (N (nodeOf an) tid) ≠ []
                then relabelV tid an else an), Vertex.copy n tid)
  | [], _, e => fun h => Or.inl h
  | a :: t, acc, e => by
    rw [List.foldl_cons]
    intro h
    rcases stepfold_edges_mem u v N tid t (stepVertex u v N tid acc a) e h with
      h1 | ⟨an, n, hanA, hn, he⟩
    · have hedges : (stepVertex u v N tid acc a).edges =
          acc.edges ++ (dedupKeys (N (nodeOf a) tid)).map (fun n =>
            ((if isRootV a ∧ dedupKeys (N (nodeOf a) tid) ≠ []
                then relabelV tid a else a), Vertex.copy n tid)) := rfl
      rw [hedges] at h1
      rcases List.mem_append.1 h1 with h2 | h2
      · exact Or.inl h2
      · obtain ⟨n, hn, he⟩ := List.mem_map.1 h2
        exact Or.inr ⟨a, n, List.mem_cons_self a t, hn, he.symm⟩
    · exact Or.inr ⟨an, n, List.mem_cons_of_mem a hanA, hn, he⟩

theorem stepfold_toAdd_mem (u v : Nat) (N : Nat → Int → List Nat) (tid : Int) :
    ∀ (A : List Vertex) (acc : StepAcc) (x : Vertex),
      x ∈ (A.foldl (stepVertex u v N tid) acc).toAdd →
      x ∈ acc.toAdd ∨ ∃ n, x = Vertex.copy n tid
  | [], _, x => fun h => Or.inl h
  | a :: t, acc, x => by
    rw [List.foldl_cons]
    intro h
    rcases stepfold_toAdd_mem u v N tid t (stepVertex u v N tid acc a) x h with
      h1 | hn
    · have hta : (stepVertex u v N tid acc a).toAdd =
          acc.toAdd ++ (dedupKeys (N (nodeOf a) tid)).map
            (fun n => Vertex.copy n tid) := rfl
      rw [hta] at h1
      rcases List.mem_append.1 h1 with h2 | h2
      · exact Or.inl h2
      · obtain ⟨n, _, he⟩ := List.mem_map.1 h2
        exact Or.inr ⟨n, he.symm⟩
    · exact Or.inr hn

theorem stepfold_toRemove_root (u v : Nat) (N : Nat → Int → List Nat) (tid : Int) :
    ∀ (A : List Vertex) (acc : StepAcc),
      Vertex.root u ∈ (A.foldl (stepVertex u v N tid) acc).toRemove →
      Vertex.root u ∈ acc.toRemove
  | [], _ => fun h => h
  | a :: t, acc => by
    rw [List.foldl_cons]
    intro h
    have h1 := stepfold_toRemove_root u v N tid t (stepVertex u v N tid acc a) h
    have hrm : (stepVertex u v N tid acc a).toRemove =
        if dedupKeys (N (nodeOf a) tid) = [] ∧ a ≠ Vertex.root u
          then acc.toRemove ++ [a] else acc.toRemove := rfl
    rw [hrm] at h1
    split at h1
    · rcases List.mem_append.1 h1 with h2 | h2
      · exact h2
      · rename_i hcond
        rcases List.mem_singleton.1 h2 with h3
        exact absurd h3.symm hcond.2
    · exact h1

theorem stepfold_sources_copies (u v : Nat) (N : Nat → Int → List Nat) (tid : Int) :
    ∀ (A : List Vertex) (acc : StepAcc), (∀ x ∈ A, isRootV x = false) →
      (A.foldl (stepVertex u v N tid) acc).sources = acc.sources
  | [], _, _ => rfl
  | a :: t, acc, hA => by
    rw [List.foldl_cons]
    rw [stepfold_sources_copies u v N tid t _ (fun x hx => hA x (List.mem_cons_of_mem a hx))]
    have ha : isRootV a = false := hA a (List.mem_cons_self a t)
    show (if isRootV a ∧ dedupKeys (N (nodeOf a) tid) ≠ []
        then insertKey acc.sources (relabelV tid a) else acc.sources) = acc.sources
    rw [if_neg]
    rintro ⟨h1, _⟩
    rw [ha] at h1
    cases h1

theorem stepfold_sources_root (u v : Nat) (N : Nat → Int → List Nat) (tid : Int)
    (w : Nat) (cs : List Vertex) (acc : StepAcc)
    (hcs : ∀ x ∈ cs, isRootV x = false) :
    ((Vertex.root w :: cs).foldl (stepVertex u v N tid) acc).sources =
      if dedupKeys (N w tid) = [] then acc.sources
      else insertKey acc.sources (Vertex.copy w tid) := by
  rw [List.foldl_cons, stepfold_sources_copies u v N tid cs _ hcs]
  by_cases hd : dedupKeys (N w tid) = []
  · rw [if_pos hd]
    show (if isRootV (Vertex.root w) ∧ dedupKeys (N (nodeOf (Vertex.root w)) tid) ≠ []
        then insertKey acc.sources (relabelV tid (Vertex.root w)) else acc.sources) = acc.sources
    rw [if_neg]
    rintro ⟨_, h2⟩
    exact h2 hd
  · rw [if_neg hd]
    show (if isRootV (Vertex.root w) ∧ dedupKeys (N (nodeOf (Vertex.root w)) tid) ≠ []
        then insertKey acc.sources (relabelV tid (Vertex.root w)) else acc.sources) =
      insertKey acc.sources (Vertex.copy w tid)
    rw [if_pos ⟨rfl, hd⟩]
    rfl

theorem dagStep_active (u v : Nat) (N : Nat → Int → List Nat) (tid : Int)
    (rest : List Int) (st : DagState)
    (hA : ActiveOK u (tid :: rest) st.active) (hrest : ∀ s ∈ rest, tid < s) :
    ActiveOK u rest (dagStep u v N tid st).active := by
  obtain ⟨cs, hcs, hmem⟩ := hA
  have hactive : (dagStep u v N tid st).active =
      (((Vertex.root u :: cs).foldl (stepVertex u v N tid)
        { edges := st.edges, sources := st.sources, targets := st.targets,
          toAdd := [], toRemove := [] }).toAdd.foldl insertKey (Vertex.root u :: cs)).filter
        (fun x => decide (¬ x ∈ ((Vertex.root u :: cs).foldl (stepVertex u v N tid)
          { edges := st.edges, sources := st.sources, targets := st.targets,
            toAdd := [], toRemove := [] }).toRemove)) := by
    rw [show (dagStep u v N tid st).active =
        ((st.active.foldl (stepVertex u v N tid)
          { edges := st.edges, sources := st.sources, targets := st.targets,
            toAdd := [], toRemove := [] }).toAdd.foldl insertKey st.active).filter
          (fun x => decide (¬ x ∈ (st.active.foldl (stepVertex u v N tid)
            { edges := st.edges, sources := st.sources, targets := st.targets,
              toAdd := [], toRemove := [] }).toRemove)) from rfl, hcs]
  obtain ⟨extra, hex, hexm⟩ := foldl_insertKey_append
    (((Vertex.root u :: cs).foldl (stepVertex u v N tid)
      { edges := st.edges, sources := st.sources, targets := st.targets,
        toAdd := [], toRemove := [] }).toAdd) (Vertex.root u :: cs)
  have hroot_rm : Vertex.root u ∉ ((Vertex.root u :: cs).foldl (stepVertex u v N tid)
      { edges := st.edges, sources := st.sources, targets := st.targets,
        toAdd := [], toRemove := [] }).toRemove := by
    intro hmem2
    have h0 := stepfold_toRemove_root u v N tid (Vertex.root u :: cs) _ hmem2
    exact absurd h0 (List.not_mem_nil _)
  rw [hactive, hex]
  rw [show (Vertex.root u :: cs) ++ extra = Vertex.root u :: (cs ++ extra) from rfl]
  rw [List.filter_cons_of_pos (by simpa using hroot_rm)]
  refine ⟨(cs ++ extra).filter _, rfl, ?_⟩
  intro x hx
  have hx2 := List.mem_of_mem_filter hx
  rcases List.mem_append.1 hx2 with h2 | h2
  · obtain ⟨n, t, hxe, hlt⟩ := hmem x h2
    exact ⟨n, t, hxe, fun s hs => hlt s (List.mem_cons_of_mem tid hs)⟩
  · have h3 := hexm x h2
    rcases stepfold_toAdd_mem u v N tid (Vertex.root u :: cs) _ x h3 with h4 | ⟨n, h4⟩
    · exact absurd h4 (List.not_mem_nil _)
    · exact ⟨n, tid, h4, hrest⟩

theorem dagStep_sources (u v : Nat) (N : Nat → Int → List Nat) (tid : Int)
    (rest : List Int) (st : DagState)
    (hA : ActiveOK u (tid :: rest) st.active) (hS : SourcesOK (tid :: rest) st.sources) :
    (dagStep u v N tid st).sources =
      st.sources ++ (if dedupKeys (N u tid) = [] then [] else [Vertex.copy u tid]) := by
  obtain ⟨cs, hcs, hmem⟩ := hA
  have hcopies : ∀ x ∈ cs, isRootV x = false := by
    intro x hx
    obtain ⟨n, t, hxe, _⟩ := hmem x hx
    rw [hxe]
    rfl
  have hsrc : (dagStep u v N tid st).sources =
      (st.active.foldl (stepVertex u v N tid)
        { edges := st.edges, sources := st.sources, targets := st.targets,
          toAdd := [], toRemove := [] }).sources := rfl
  rw [hsrc, hcs, stepfold_sources_root u v N tid u cs _ hcopies]
  by_cases hd : dedupKeys (N u tid) = []
  · rw [if_pos hd, if_pos hd, List.append_nil]
  · rw [if_neg hd, if_neg hd]
    have hfresh : Vertex.copy u tid ∉ st.sources := by
      intro hmem2
      obtain ⟨n, t, hxe, hlt⟩ := hS _ hmem2
      injection hxe with h1 h2
      have h3 := hlt tid (List.mem_cons_self tid rest)
      rw [← h2] at h3
      exact lt_irrefl tid h3
    have hik : insertKey st.sources (Vertex.copy u tid) =
        st.sources ++ [Vertex.copy u tid] := if_neg hfresh
    rw [hik]

theorem dagStep_sourcesOK (u v : Nat) (N : Nat → Int → List Nat) (tid : Int)
    (rest : List Int) (st : DagState)
    (hA : ActiveOK u (tid :: rest) st.active) (hS : SourcesOK (tid :: rest) st.sources)
    (hrest : ∀ s ∈ rest, tid < s) :
    SourcesOK rest (dagStep u v N tid st).sources := by
  rw [dagStep_sources u v N tid rest st hA hS]
  intro x hx
  rcases List.mem_append.1 hx with h1 | h1
  · obtain ⟨n, t, hxe, hlt⟩ := hS x h1
    exact ⟨n, t, hxe, fun s hs => hlt s (List.mem_cons_of_mem tid hs)⟩
  · split at h1
    · cases h1
    · rcases List.mem_singleton.1 h1 with h2
      exact ⟨u, tid, h2, hrest⟩

theorem dagStep_edges (u v : Nat) (N : Nat → Int → List Nat) (tid : Int)
    (rest : List Int) (st : DagState)
    (hA : ActiveOK u (tid :: rest) st.active)
    (hE : ∀ e ∈ st.edges, EdgeShape u N e) :
    ∀ e ∈ (dagStep u v N tid st).edges, EdgeShape u N e := by
  obtain ⟨cs, hcs, hmem⟩ := hA
  intro e he
  have hed : (dagStep u v N tid st).edges =
      (st.active.foldl (stepVertex u v N tid)
        { edges := st.edges, sources := st.sources, targets := st.targets,
          toAdd := [], toRemove := [] }).edges := rfl
  rw [hed] at he
  rcases stepfold_edges_mem u v N tid st.active _ e he with h1 | ⟨an, n, hanA, hn, heq⟩
  · exact hE e h1
  · rw [hcs] at hanA
    have hnn : dedupKeys (N (nodeOf an) tid) ≠ [] := List.ne_nil_of_mem hn
    rcases List.mem_cons.1 hanA with rfl | hcsmem
    · rw [if_pos ⟨rfl, hnn⟩] at heq
      refine ⟨u, tid, n, tid, heq, le_refl tid, fun _ => ⟨rfl, ?_⟩⟩
      exact (mem_dedupKeys _ _).1 hn
    · obtain ⟨m, s, hxe, hlt⟩ := hmem an hcsmem
      have hslt : s < tid := hlt tid (List.mem_cons_self tid rest)
      rw [hxe] at heq
      rw [if_neg (by rintro ⟨h1, _⟩; cases h1)] at heq
      refine ⟨m, s, n, tid, heq, le_of_lt hslt, fun hst => absurd (hst ▸ hslt) (lt_irrefl tid)⟩

theorem dagLoop_sources (u v : Nat) (N : Nat → Int → List Nat) :
    ∀ (ids : List Int) (st : DagState), List.Pairwise (· < ·) ids →
      ActiveOK u ids st.active → SourcesOK ids st.sources →
      (dagLoop u v N ids st).sources =
        st.sources ++ (ids.filter (fun s => decide (N u s ≠ []))).map
          (fun s => Vertex.copy u s)
  | [], st, _, _, _ => by simp [dagLoop]
  | tid :: rest, st, hpw, hA, hS => by
    have hrest : ∀ s ∈ rest, tid < s := (List.pairwise_cons.1 hpw).1
    have hpw2 : List.Pairwise (· < ·) rest := (List.pairwise_cons.1 hpw).2
    show (dagLoop u v N rest (dagStep u v N tid st)).sources = _
    rw [dagLoop_sources u v N rest (dagStep u v N tid st) hpw2
      (dagStep_active u v N tid rest st hA hrest)
      (dagStep_sourcesOK u v N tid rest st hA hS hrest)]
    rw [dagStep_sources u v N tid rest st hA hS, List.append_assoc]
    congr 1
    by_cases hn : N u tid = []
    · have hd : dedupKeys (N u tid) = [] := by rw [hn]; rfl
      simp [List.filter_cons, hn, hd, dedupKeys]
    · have hd : dedupKeys (N u tid) ≠ [] := fun hcontra =>
        hn ((dedupKeys_nil_iff _).1 hcontra)
      simp [List.filter_cons, hn, hd]

theorem dagLoop_edges (u v : Nat) (N : Nat → Int → List Nat) :
    ∀ (ids : List Int) (st : DagState), List.Pairwise (· < ·) ids →
      ActiveOK u ids st.active → (∀ e ∈ st.edges, EdgeShape u N e) →
      ∀ e ∈ (dagLoop u v N ids st).edges, EdgeShape u N e
  | [], _, _, _, hE => hE
  | tid :: rest, st, hpw, hA, hE => by
    have hrest : ∀ s ∈ rest, tid < s := (List.pairwise_cons.1 hpw).1
    have hpw2 : List.Pairwise (· < ·) rest := (List.pairwise_cons.1 hpw).2
    show ∀ e ∈ (dagLoop u v N rest (dagStep u v N tid st)).edges, EdgeShape u N e
    exact dagLoop_edges u v N rest (dagStep u v N tid st) hpw2
      (dagStep_active u v N tid rest st hA hrest)
      (dagStep_edges u v N tid rest st hA hE)

theorem activeOK_init (u : Nat) (ids : List Int) :
    ActiveOK u ids [Vertex.root u] :=
  ⟨[], rfl, fun x hx => absurd hx (List.not_mem_nil x)⟩

/-- The sources dict of the builder, exactly: one copy of the root for
every timestamp of the (sorted) window at which the root has at least
one neighbor, in chronological order. -/
theorem temporalDag_sources (u v : Nat) (N : Nat → Int → List Nat) (ids : List Int)
    (h : List.Pairwise (· < ·) ids) :
    (temporalDag u v N ids).sources =
      (ids.filter (fun s => decide (N u s ≠ []))).map (fun s => Vertex.copy u s) := by
  have h0 := dagLoop_sources u v N ids
    { edges := [], active := [Vertex.root u], sources := [], targets := [] }
    h (activeOK_init u ids) (fun x hx => absurd hx (List.not_mem_nil x))
  simpa [temporalDag] using h0

theorem temporalDag_edges (u v : Nat) (N : Nat → Int → List Nat) (ids : List Int)
    (h : List.Pairwise (· < ·) ids) :
    ∀ e ∈ (temporalDag u v N ids).edges, EdgeShape u N e :=
  dagLoop_edges u v N ids
    { edges := [], active := [Vertex.root u], sources := [], targets := [] }
    h (activeOK_init u ids) (fun e he => absurd he (List.not_mem_nil e))

/-! Soundness of the simple-path enumeration and of the interaction
translation. -/

theorem mem_successors (E : List (Vertex × Vertex)) (x y : Vertex) :
    y ∈ successors E x ↔ (x, y) ∈ E := by
  simp only [successors, List.mem_map, List.mem_filter, decide_eq_true_eq]
  constructor
  · rintro ⟨e, ⟨he, h1⟩, h2⟩
    rw [← h1, ← h2]
    exact he
  · intro h
    exact ⟨(x, y), ⟨h, rfl⟩, rfl⟩

theorem simplePaths_shape (E : List (Vertex × Vertex)) :
    ∀ (fuel : Nat) (cur tgt : Vertex) (visited : List Vertex) (p : List Vertex),
      p ∈ simplePathsAux E fuel cur tgt visited →
      (∃ q, p = cur :: q) ∧ List.Chain' (fun a b => (a, b) ∈ E) p
  | 0, cur, tgt, visited, p => by
    intro h
    simp [simplePathsAux] at h
  | Nat.succ fuel, cur, tgt, visited, p => by
    intro h
    by_cases hct : cur = tgt
    · rw [simplePathsAux, if_pos hct] at h
      rcases List.mem_singleton.1 h with rfl
      exact ⟨⟨[], rfl⟩, List.chain'_singleton _⟩
    · rw [simplePathsAux, if_neg hct] at h
      rw [mem_foldl_append
        (fun child => (simplePathsAux E fuel child tgt (visited ++ [cur])).map
          (fun q => cur :: q))] at h
      rcases h with h | ⟨child, hchild, hp⟩
      · exact absurd h (List.not_mem_nil p)
      · obtain ⟨q, hq, hpq⟩ := List.mem_map.1 hp
        obtain ⟨⟨q2, hq2⟩, hchain⟩ := simplePaths_shape E fuel child tgt (visited ++ [cur]) q hq
        have hce : (cur, child) ∈ E := by
          have h2 := List.mem_of_mem_filter hchild
          exact (mem_successors E cur child).1 h2
        refine ⟨⟨q, hpq.symm⟩, ?_⟩
        rw [← hpq, hq2]
        rw [hq2] at hchain
        exact List.chain'_cons.2 ⟨hce, hchain⟩

/-- Translating a DAG walk into interactions yields a chained,
time-respecting interaction sequence: consecutive interactions share
their middle endpoint by construction, and the edge shape invariant
forces non-decreasing timestamps. -/
theorem chain_translate (u : Nat) (N : Nat → Int → List Nat)
    (E : List (Vertex × Vertex)) (hE : ∀ e ∈ E, EdgeShape u N e) :
    ∀ (vp : List Vertex), List.Chain' (fun a b => (a, b) ∈ E) vp →
      List.Chain' (fun x y : Nat × Nat × Int => x.2.1 = y.1 ∧ x.2.2 ≤ y.2.2)
        (pathOfVertices vp)
  | [], _ => by simp [pathOfVertices]
  | [a], _ => by simp [pathOfVertices]
  | a :: b :: rest, h => by
    have hab : (a, b) ∈ E := (List.chain'_cons.1 h).1
    have h2 : List.Chain' (fun a b => (a, b) ∈ E) (b :: rest) := (List.chain'_cons.1 h).2
    have ih := chain_translate u N E hE (b :: rest) h2
    show List.Chain' _ ((nodeOf a, nodeOf b, timeOf b) :: pathOfVertices (b :: rest))
    cases rest with
    | nil => exact List.chain'_singleton _
    | cons c rest2 =>
      show List.Chain' _ ((nodeOf a, nodeOf b, timeOf b) ::
        (nodeOf b, nodeOf c, timeOf c) :: pathOfVertices (c :: rest2))
      refine List.chain'_cons.2 ⟨⟨rfl, ?_⟩, ih⟩
      have hbc : (b, c) ∈ E := (List.chain'_cons.1 h2).1
      obtain ⟨m, s, n, t, heq, hle, _⟩ := hE (b, c) hbc
      have hb : b = Vertex.copy m s := congrArg Prod.fst heq
      have hcv : c = Vertex.copy n t := congrArg Prod.snd heq
      rw [hb, hcv]
      exact hle

/-! Cycles in the edge list. -/

theorem edge_meas_lt (u : Nat) (N : Nat → Int → List Nat)
    (hself : ∀ a t, a ∉ N a t) (e : Vertex × Vertex) (he : EdgeShape u N e) :
    measDag u e.1 < measDag u e.2 := by
  obtain ⟨m, s, n, t, heq, hle, hst⟩ := he
  have h1 : e.1 = Vertex.copy m s := congrArg Prod.fst heq
  have h2 : e.2 = Vertex.copy n t := congrArg Prod.snd heq
  rw [h1, h2]
  show 2 * s + (if m = u then 0 else 1) < 2 * t + (if n = u then 0 else 1)
  rcases lt_or_eq_of_le hle with hlt | heq2
  · have hb1 : (if m = u then (0 : Int) else 1) ≤ 1 := by split <;> omega
    have hb2 : (0 : Int) ≤ (if n = u then (0 : Int) else 1) := by split <;> omega
    omega
  · obtain ⟨hmu, hnN⟩ := hst heq2
    have hnu : n ≠ u := by
      intro hcontra
      rw [hcontra] at hnN
      exact hself u t hnN
    rw [if_pos hmu, if_neg hnu, heq2]
    omega

theorem walk_meas_le (E : List (Vertex × Vertex)) (u : Nat)
    (hlt : ∀ e ∈ E, measDag u e.1 < measDag u e.2) :
    ∀ (l : List Vertex) (h e : Vertex), l.head? = some h → l.getLast? = some e →
      ((l.zip l.tail).all (fun pr => decide (pr ∈ E)) = true) →
      measDag u h ≤ measDag u e
  | [], h, e => by
    intro hh _ _
    cases hh
  | [x], h, e => by
    intro hh he _
    have hxh : h = x := (Option.some_inj.1 hh).symm
    have hxe : x = e := by simpa using he
    rw [hxh, ← hxe]
  | x :: y :: rest, h, e => by
    intro hh he hall
    have hx : h = x := (Option.some_inj.1 hh).symm
    have he2 : (y :: rest).getLast? = some e := by
      rwa [List.getLast?_cons_cons] at he
    have hzip : ((x :: y :: rest).zip (x :: y :: rest).tail) =
        (x, y) :: ((y :: rest).zip rest) := rfl
    rw [hzip, List.all_cons, Bool.and_eq_true] at hall
    have hall2 : (((y :: rest).zip (y :: rest).tail).all
        (fun pr => decide (pr ∈ E)) = true) := hall.2
    have hxy : (x, y) ∈ E := of_decide_eq_true hall.1
    have ih := walk_meas_le E u hlt (y :: rest) y e rfl he2 hall2
    rw [hx]
    exact le_trans (le_of_lt (hlt (x, y) hxy)) ih

/-- An edge list along which the measure strictly increases carries no
cycle. -/
theorem no_cycle_of_meas (E : List (Vertex × Vertex)) (u : Nat)
    (hlt : ∀ e ∈ E, measDag u e.1 < measDag u e.2) (l : List Vertex) :
    isCycle E l = false := by
  cases hl : l.head? with
  | none => cases l <;> simp_all [isCycle]
  | some h =>
    cases hgl : l.getLast? with
    | none =>
      cases l with
      | nil => rfl
      | cons x xs => simp [List.getLast?_eq_none_iff] at hgl
    | some e =>
      by_contra hcontra
      have hc : isCycle E l = true := by
        cases hcyc : isCycle E l
        · exact absurd hcyc hcontra
        · rfl
      rw [isCycle, hl, hgl, Bool.and_eq_true] at hc
      obtain ⟨hall, hback⟩ := hc
      have hbe : (e, h) ∈ E := of_decide_eq_true hback
      have h1 := walk_meas_le E u hlt l h e hl hgl hall
      have h2 := hlt (e, h) hbe
      exact absurd (lt_of_le_of_lt h1 h2) (lt_irrefl _)

/-! The window resolver on sorted timestamp lists. -/

theorem foldl_min_of_le {α : Type} [LinearOrder α] :
    ∀ (t : List α) (m : α), (∀ x ∈ t, m ≤ x) → t.foldl min m = m
  | [], _, _ => rfl
  | b :: tb, m, h => by
    rw [List.foldl_cons, min_eq_left (h b (List.mem_cons_self b tb))]
    exact foldl_min_of_le tb m (fun x hx => h x (List.mem_cons_of_mem b hx))

theorem pyMin_sorted (a : Int) (t : List Int)
    (h : List.Pairwise (· < ·) (a :: t)) : pyMin (a :: t) = a := by
  show t.foldl min a = a
  exact foldl_min_of_le t a
    (fun x hx => le_of_lt ((List.pairwise_cons.1 h).1 x hx))

theorem pyMax_eq_pyLast :
    ∀ (ids : List Int), ids ≠ [] → List.Pairwise (· < ·) ids →
      pyMax ids = pyLast ids
  | [], h, _ => absurd rfl h
  | [_], _, _ => rfl
  | a :: b :: t, _, h => by
    have hab : a < b := (List.pairwise_cons.1 h).1 b (List.mem_cons_self b t)
    have h2 : List.Pairwise (· < ·) (b :: t) := (List.pairwise_cons.1 h).2
    have step : pyMax (a :: b :: t) = pyMax (b :: t) := by
      show (b :: t).foldl max a = t.foldl max b
      rw [List.foldl_cons, max_eq_right (le_of_lt hab)]
    rw [step, pyMax_eq_pyLast (b :: t) (by simp) h2]
    rfl

theorem windowSlice_ok_sublist (ids : List Int) (s e : Int) (w : List Int)
    (h : windowSlice ids s e = Except.ok w) : w.Sublist ids := by
  rw [windowSlice] at h
  split at h
  · exact absurd h (by simp)
  · split at h
    · injection h with h2
      rw [← h2]
      exact pySlice_sublist _ _ _
    · split at h
      · exact absurd h (by simp)
      · injection h with h2
        rw [← h2]
        exact pySlice_sublist _ _ _

theorem windowSlice_ne_invalid (ids : List Int) (s e : Int) :
    windowSlice ids s e ≠ Except.error Err.invalidWindow := by
  rw [windowSlice]
  split
  · simp
  · split
    · simp
    · split
      · simp
      · simp

theorem windowSlice_ok_exists (ids : List Int) (s e : Int)
    (h1 : ∃ i ∈ ids, s ≤ i) (h2 : e = pyLast ids ∨ ∃ i ∈ ids, e < i) :
    ∃ w, windowSlice ids s e = Except.ok w := by
  obtain ⟨k, hk⟩ := indexOfTrue_some (ids.map fun i => decide (s ≤ i)) (by
    obtain ⟨i, hi, hsi⟩ := h1
    exact List.mem_map.2 ⟨i, hi, decide_eq_true hsi⟩)
  rw [windowSlice, hk]
  show ∃ w, (if e = pyLast ids then Except.ok (pySlice ids k e)
    else match indexOfTrue (ids.map (fun i => decide (e < i))) with
      | none => Except.error Err.trueNotInList
      | some eIdx => Except.ok (pySlice ids k (eIdx : Int))) = Except.ok w
  by_cases he : e = pyLast ids
  · rw [if_pos he]
    exact ⟨_, rfl⟩
  · rw [if_neg he]
    rcases h2 with he2 | ⟨i, hi, hei⟩
    · exact absurd he2 he
    · obtain ⟨k2, hk2⟩ := indexOfTrue_some (ids.map fun i => decide (e < i))
        (List.mem_map.2 ⟨i, hi, decide_eq_true hei⟩)
      rw [hk2]
      exact ⟨_, rfl⟩

theorem resolveWindow_cons (a : Int) (t : List Int) (s? e? : Option Int) :
    resolveWindow (a :: t) s? e? =
      (if (s?.getD a) < pyMin (a :: t) ∨
          (s?.getD a) > (e?.getD (pyLast (a :: t))) ∨
          (e?.getD (pyLast (a :: t))) > pyMax (a :: t) ∨
          (s?.getD a) > pyMax (a :: t)
        then Except.error Err.invalidWindow
        else windowSlice (a :: t) (s?.getD a) (e?.getD (pyLast (a :: t)))) := by
  cases s? <;> cases e? <;> rfl

theorem resolveWindow_ok_sublist (ids : List Int) (s? e? : Option Int)
    (w : List Int) (h : resolveWindow ids s? e? = Except.ok w) : w.Sublist ids := by
  cases ids with
  | nil => exact absurd h (by simp [resolveWindow])
  | cons a t =>
    rw [resolveWindow_cons] at h
    split at h
    · exact absurd h (by simp)
    · exact windowSlice_ok_sublist _ _ _ _ h

/-- resolveWindow raises the invalid-window ValueError exactly when the
defaulted bounds violate the four comparisons, and succeeds otherwise
(on a sorted non-empty timestamp list). -/
theorem resolveWindow_invalid_iff (ids : List Int) (s? e? : Option Int)
    (hne : ids ≠ []) (hs : List.Pairwise (· < ·) ids) :
    (resolveWindow ids s? e? = Except.error Err.invalidWindow ↔
      (s?.getD (pyMin ids) < pyMin ids ∨
       s?.getD (pyMin ids) > e?.getD (pyMax ids) ∨
       e?.getD (pyMax ids) > pyMax ids ∨
       s?.getD (pyMin ids) > pyMax ids)) ∧
    ((¬ (s?.getD (pyMin ids) < pyMin ids ∨
       s?.getD (pyMin ids) > e?.getD (pyMax ids) ∨
       e?.getD (pyMax ids) > pyMax ids ∨
       s?.getD (pyMin ids) > pyMax ids)) →
      ∃ w, resolveWindow ids s? e? = Except.ok w) := by
  cases ids with
  | nil => exact absurd rfl hne
  | cons a t =>
    have hmin : pyMin (a :: t) = a := pyMin_sorted a t hs
    have hlast : pyMax (a :: t) = pyLast (a :: t) :=
      pyMax_eq_pyLast (a :: t) (by simp) hs
    rw [resolveWindow_cons, hmin, ← hlast]
    constructor
    · constructor
      · intro h
        by_contra hc
        rw [if_neg hc] at h
        exact windowSlice_ne_invalid _ _ _ h
      · intro h
        rw [if_pos h]
    · intro hc
      rw [if_neg hc]
      push_neg at hc
      obtain ⟨h1, h2, h3, h4⟩ := hc
      apply windowSlice_ok_exists
      · exact ⟨pyMax (a :: t), pyMax_mem _ (by simp), h4⟩
      · by_cases he : e?.getD (pyMax (a :: t)) = pyLast (a :: t)
        · exact Or.inl he
        · refine Or.inr ⟨pyMax (a :: t), pyMax_mem _ (by simp), ?_⟩
          rw [hlast] at h3 he ⊢
          exact lt_of_le_of_ne h3 he

theorem timeRespectingPaths_error_iff (N : Nat → Int → List Nat) (u v : Nat)
    (ids : List Int) (s? e? : Option Int) (err : Err) :
    timeRespectingPaths N u v ids s? e? = Except.error err ↔
      resolveWindow ids s? e? = Except.error err := by
  cases h : resolveWindow ids s? e? <;> simp [timeRespectingPaths, h]

theorem timeRespectingPaths_ok_of (N : Nat → Int → List Nat) (u v : Nat)
    (ids : List Int) (s? e? : Option Int) (w : List Int)
    (h : resolveWindow ids s? e? = Except.ok w) :
    timeRespectingPaths N u v ids s? e? =
      Except.ok (timeRespectingPathsOn N u v w) := by
  simp [timeRespectingPaths, h]

/-! Lemmas for the classification claims. -/

theorem dedup_filter_min_mem {α : Type} [LinearOrder α] [Inhabited α]
    (L : List Path) (hL : L ≠ []) (f : Path → α) (x : Path) :
    (x ∈ (dedupKeys L).filter
      (fun q => decide (f q = pyMin ((dedupKeys L).map f)))) ↔
      (x ∈ L ∧ f x = pyMin (L.map f)) := by
  have hd : dedupKeys L ≠ [] := fun h => hL ((dedupKeys_nil_iff L).1 h)
  have hmm : ∀ y, y ∈ (dedupKeys L).map f ↔ y ∈ L.map f := by
    intro y
    simp only [List.mem_map]
    constructor
    · rintro ⟨q, hq, rfl⟩
      exact ⟨q, (mem_dedupKeys L q).1 hq, rfl⟩
    · rintro ⟨q, hq, rfl⟩
      exact ⟨q, (mem_dedupKeys L q).2 hq, rfl⟩
  have hpm : pyMin ((dedupKeys L).map f) = pyMin (L.map f) :=
    pyMin_congr _ _ (by simpa using hd) (by simpa using hL) hmm
  rw [List.mem_filter, mem_dedupKeys, hpm]
  simp

theorem filter_min_ne_nil {α : Type} [LinearOrder α] [Inhabited α]
    (p : Path) (t : List Path) (f : Path → α) :
    (p :: t).filter (fun q => decide (f q = pyMin ((p :: t).map f))) ≠ [] := by
  have hmem := pyMin_mem ((p :: t).map f) (by simp)
  obtain ⟨q, hq, hql⟩ := List.mem_map.1 hmem
  exact List.ne_nil_of_mem (List.mem_filter.2 ⟨hq, decide_eq_true hql⟩)

/-- Claim C1: the spec says the resolved iteration sequence is the
sub-sequence of timestamps in [start, end], always including the largest
timestamp at most end.  The code instead slices ids[startIndex:end]
where end is the raw end timestamp whenever it equals ids[-1]: on the
network with timestamps 0 and 1 and the defaulted window [0, 1] it
yields [0] and silently drops timestamp 1, while the claimed
sub-sequence is [0, 1].  This evaluation exhibits the failing input. -/
theorem C1_eval :
    resolveWindow [0, 1] none none = Except.ok [0] ∧
    ([0, 1] : List Int).filter (fun i => decide (0 ≤ i ∧ i ≤ 1)) = [0, 1] := by
  constructor
  · rfl
  · rfl

/-- Claim C2 counterexample: on the network where the root 0 has a
neighbor at both timestamps 1 and 2, the builder registers a Source copy
at both timestamps — not only at the first successful expansion as the
claim states (which would give sources = [copy 0 1] only).  The loop
variable relabeling never updates the active dict, so the raw root stays
active and is relabeled anew at every timestamp. -/
theorem C2_counterexample :
    (temporalDag 0 1 netRepeat [1, 2]).sources =
      [Vertex.copy 0 1, Vertex.copy 0 2] ∧
    (temporalDag 0 1 netRepeat [1, 2]).sources ≠ [Vertex.copy 0 1] := by
  constructor
  · rfl
  · decide

/-- Claim C2 amended: over a sorted timestamp window, the Sources set
holds exactly one copy (u, t) for every timestamp t of the window at
which the root u has at least one neighbor, in chronological order —
not only the first such timestamp. -/
theorem C2_thm (u v : Nat) (N : Nat → Int → List Nat) (ids : List Int)
    (h : List.Pairwise (· < ·) ids) :
    (temporalDag u v N ids).sources =
      (ids.filter (fun s => decide (N u s ≠ []))).map (fun s => Vertex.copy u s) :=
  temporalDag_sources u v N ids h

/-- Claim C2 witness: the amended statement evaluated on the concrete
two-timestamp network. -/
theorem C2_witness :
    (temporalDag 0 1 netRepeat [1, 2]).sources =
      (([1, 2] : List Int).filter (fun s => decide (netRepeat 0 s ≠ []))).map
        (fun s => Vertex.copy 0 s) :=
  C2_thm 0 1 netRepeat [1, 2] (by decide)

/-- Claim C3: on the undirected network (A,B,1), (B,C,2), (A,C,3) with
window [1,3], the spec demands exactly the two paths
[(A,B,1),(B,C,2)] and [(A,C,3)].  The code returns a third path
[(A,B,1),(B,C,2),(C,A,3),(A,C,3)] that chains two interactions within
snapshot 3 (the vertex A_3 reached from C_2 is conflated with the
relabeled root A_3), contradicting the documented one-hop-per-snapshot
assumption.  The annotate_paths record on the claimed two-path set does
match the claim. -/
theorem C3_eval :
    timeRespectingPaths netTriangle 0 2 [1, 2, 3] (some 1) (some 3) =
      Except.ok [[(0, 1, 1), (1, 2, 2)],
                 [(0, 1, 1), (1, 2, 2), (2, 0, 3), (0, 2, 3)],
                 [(0, 2, 3)]] ∧
    annotate_paths [[(0, 1, 1), (1, 2, 2)], [(0, 2, 3)]] =
      Except.ok { shortest := [[(0, 2, 3)]],
                  fastest := [[(0, 2, 3)]],
                  shortest_fastest := [[(0, 2, 3)]],
                  fastest_shortest := [[(0, 2, 3)]],
                  foremost := [[(0, 1, 1), (1, 2, 2)]] } := by
  constructor
  · rfl
  · rfl

/-- Claim C4: on a non-empty input of non-empty paths, annotate_paths
returns shortest equal to the input paths of minimum path_length,
fastest to those of minimum path_duration, and foremost to those of
minimum arrival, each in input order. -/
theorem C4_thm (paths : List Path) (h1 : paths ≠ [])
    (h2 : ∀ p ∈ paths, p ≠ []) :
    ∃ a, annotate_paths paths = Except.ok a ∧
      a.shortest = paths.filter
        (fun q => decide (path_length q = pyMin (paths.map path_length))) ∧
      a.fastest = paths.filter
        (fun q => decide (path_duration q = pyMin (paths.map path_duration))) ∧
      a.foremost = paths.filter
        (fun q => decide (lastT q = pyMin (paths.map lastT))) := by
  cases paths with
  | nil => exact absurd rfl h1
  | cons p t => exact ⟨_, annotate_fields p t, rfl, rfl, rfl⟩

/-- Claim C4 witness: the scenario path set. -/
theorem C4_witness :
    ∃ a, annotate_paths [[(0, 1, 1), (1, 2, 2)], [(0, 2, 3)]] = Except.ok a ∧
      a.shortest = [[(0, 1, 1), (1, 2, 2)], [(0, 2, 3)]].filter
        (fun q => decide (path_length q =
          pyMin ([[(0, 1, 1), (1, 2, 2)], [(0, 2, 3)]].map path_length))) ∧
      a.fastest = [[(0, 1, 1), (1, 2, 2)], [(0, 2, 3)]].filter
        (fun q => decide (path_duration q =
          pyMin ([[(0, 1, 1), (1, 2, 2)], [(0, 2, 3)]].map path_duration))) ∧
      a.foremost = [[(0, 1, 1), (1, 2, 2)], [(0, 2, 3)]].filter
        (fun q => decide (lastT q =
          pyMin ([[(0, 1, 1), (1, 2, 2)], [(0, 2, 3)]].map lastT))) :=
  C4_thm [[(0, 1, 1), (1, 2, 2)], [(0, 2, 3)]] (by decide) (by decide)

/-- Claim C5: fastest_shortest consists exactly of the shortest paths
whose duration equals the minimum duration among the shortest (hence is
a subset of shortest), and symmetrically shortest_fastest consists
exactly of the fastest paths of minimum length among the fastest. -/
theorem C5_thm (paths : List Path) (h1 : paths ≠ [])
    (h2 : ∀ p ∈ paths, p ≠ []) :
    ∃ a, annotate_paths paths = Except.ok a ∧
      (∀ p ∈ a.fastest_shortest, p ∈ a.shortest) ∧
      (∀ p, p ∈ a.fastest_shortest ↔
        (p ∈ a.shortest ∧
         path_duration p = pyMin (a.shortest.map path_duration))) ∧
      (∀ p ∈ a.shortest_fastest, p ∈ a.fastest) ∧
      (∀ p, p ∈ a.shortest_fastest ↔
        (p ∈ a.fastest ∧
         path_length p = pyMin (a.fastest.map path_length))) := by
  cases paths with
  | nil => exact absurd rfl h1
  | cons p t =>
    have hfs := fun x => dedup_filter_min_mem
      ((p :: t).filter
        (fun q => decide (path_length q = pyMin ((p :: t).map path_length))))
      (filter_min_ne_nil p t path_length) path_duration x
    have hsf := fun x => dedup_filter_min_mem
      ((p :: t).filter
        (fun q => decide (path_duration q = pyMin ((p :: t).map path_duration))))
      (filter_min_ne_nil p t path_duration) path_length x
    exact ⟨_, annotate_fields p t, fun x hx => ((hfs x).1 hx).1, hfs,
      fun x hx => ((hsf x).1 hx).1, hsf⟩

/-- Claim C5 witness: the scenario path set. -/
theorem C5_witness :
    ∃ a, annotate_paths [[(0, 1, 1), (1, 2, 2)], [(0, 2, 3)]] = Except.ok a ∧
      (∀ p ∈ a.fastest_shortest, p ∈ a.shortest) ∧
      (∀ p, p ∈ a.fastest_shortest ↔
        (p ∈ a.shortest ∧
         path_duration p = pyMin (a.shortest.map path_duration))) ∧
      (∀ p ∈ a.shortest_fastest, p ∈ a.fastest) ∧
      (∀ p, p ∈ a.shortest_fastest ↔
        (p ∈ a.fastest ∧
         path_length p = pyMin (a.fastest.map path_length))) :=
  C5_thm [[(0, 1, 1), (1, 2, 2)], [(0, 2, 3)]] (by decide) (by decide)

/-- Claim C6: time_respecting_paths raises the invalid-window
ValueError, before any DAG construction, exactly when (after defaulting
an unset start to the minimum timestamp and an unset end to the maximum)
start < min, start > end, end > max or start > max; every window passing
the check does not raise it (the call succeeds). -/
theorem C6_thm (N : Nat → Int → List Nat) (u v : Nat) (ids : List Int)
    (s? e? : Option Int) (hne : ids ≠ []) (hs : List.Pairwise (· < ·) ids) :
    (timeRespectingPaths N u v ids s? e? = Except.error Err.invalidWindow ↔
      (s?.getD (pyMin ids) < pyMin ids ∨
       s?.getD (pyMin ids) > e?.getD (pyMax ids) ∨
       e?.getD (pyMax ids) > pyMax ids ∨
       s?.getD (pyMin ids) > pyMax ids)) ∧
    ((¬ (s?.getD (pyMin ids) < pyMin ids ∨
       s?.getD (pyMin ids) > e?.getD (pyMax ids) ∨
       e?.getD (pyMax ids) > pyMax ids ∨
       s?.getD (pyMin ids) > pyMax ids)) →
      ∃ w, timeRespectingPaths N u v ids s? e? = Except.ok w) := by
  obtain ⟨hiff, hok⟩ := resolveWindow_invalid_iff ids s? e? hne hs
  constructor
  · rw [timeRespectingPaths_error_iff]
    exact hiff
  · intro hc
    obtain ⟨w, hw⟩ := hok hc
    exact ⟨_, timeRespectingPaths_ok_of N u v ids s? e? w hw⟩

/-- Claim C6 witness: start = 5 with maximum timestamp 3 raises the
invalid-window error. -/
theorem C6_witness :
    timeRespectingPaths (fun _ _ => []) 0 1 [1, 2, 3] (some 5) none =
      Except.error Err.invalidWindow :=
  ((C6_thm (fun _ _ => []) 0 1 [1, 2, 3] (some 5) none (by decide)
    (by decide)).1).mpr (by decide)

/-- Claim C7: every path returned by time_respecting_paths is chained
(the second node of each interaction is the first node of the next) and
time-respecting (timestamps non-decreasing). -/
theorem C7_thm (N : Nat → Int → List Nat) (u v : Nat) (ids : List Int)
    (s? e? : Option Int) (paths : List Path)
    (h1 : List.Pairwise (· < ·) ids)
    (h2 : timeRespectingPaths N u v ids s? e? = Except.ok paths) :
    ∀ p ∈ paths,
      List.Chain' (fun x y : Nat × Nat × Int => x.2.1 = y.1 ∧ x.2.2 ≤ y.2.2) p := by
  cases hw : resolveWindow ids s? e? with
  | error err => simp [timeRespectingPaths, hw] at h2
  | ok w =>
    rw [timeRespectingPaths_ok_of N u v ids s? e? w hw] at h2
    have hpe : timeRespectingPathsOn N u v w = paths := by
      injection h2
    rw [← hpe]
    intro p hp
    have hsub := resolveWindow_ok_sublist ids s? e? w hw
    have hsw : List.Pairwise (· < ·) w := List.Pairwise.sublist hsub h1
    have hE := temporalDag_edges u v N w hsw
    simp only [timeRespectingPathsOn] at hp
    rw [mem_foldl_append (fun pr : Vertex × Vertex =>
      (simplePathsAux (temporalDag u v N w).edges
        ((temporalDag u v N w).edges.length + 2) pr.1 pr.2 []).map
          pathOfVertices)] at hp
    rcases hp with hp | ⟨pr, _, hp⟩
    · exact absurd hp (List.not_mem_nil p)
    · obtain ⟨vp, hvp, hpv⟩ := List.mem_map.1 hp
      obtain ⟨_, hchain⟩ := simplePaths_shape _ _ _ _ _ vp hvp
      rw [← hpv]
      exact chain_translate u N _ hE vp hchain

/-- Claim C7 witness: the longest path returned on the scenario network
is chained and time-respecting. -/
theorem C7_witness :
    List.Chain' (fun x y : Nat × Nat × Int => x.2.1 = y.1 ∧ x.2.2 ≤ y.2.2)
      [(0, 1, 1), (1, 2, 2), (2, 0, 3), (0, 2, 3)] :=
  C7_thm netTriangle 0 2 [1, 2, 3] (some 1) (some 3)
    [[(0, 1, 1), (1, 2, 2)],
     [(0, 1, 1), (1, 2, 2), (2, 0, 3), (0, 2, 3)],
     [(0, 2, 3)]] (by decide) (by rfl)
    [(0, 1, 1), (1, 2, 2), (2, 0, 3), (0, 2, 3)] (by decide)

/-- Claim C8 counterexample: a self-interaction of the root produces a
self-loop edge (copy 0 1, copy 0 1) in the DAG: a directed cycle, so the
claim that the DAG never contains a cycle (including self-loops) fails
for networks with self-interactions. -/
theorem C8_counterexample :
    isCycle (temporalDag 0 1 netSelfLoop [1]).edges [Vertex.copy 0 1] = true := by
  rfl

/-- Claim C8 amended: for every network without self-interactions
(no node is its own neighbor at any timestamp) and every sorted window,
the constructed DAG contains no directed cycle and no self-loop. -/
theorem C8_thm (u v : Nat) (N : Nat → Int → List Nat) (ids : List Int)
    (h1 : List.Pairwise (· < ·) ids) (h2 : ∀ a t, a ∉ N a t) :
    ∀ l, isCycle (temporalDag u v N ids).edges l = false := by
  intro l
  apply no_cycle_of_meas _ u
  intro e he
  exact edge_meas_lt u N h2 e (temporalDag_edges u v N ids h1 e he)

/-- Claim C8 witness: in the two-timestamp network without self-loops,
the candidate vertex sequence through the first two DAG vertices is not
a cycle. -/
theorem C8_witness :
    isCycle (temporalDag 0 1 netRepeat [1, 2]).edges
      [Vertex.copy 0 1, Vertex.copy 1 1] = false :=
  C8_thm 0 1 netRepeat [1, 2] (by decide) (by
    intro a t
    by_cases h : a = 0 <;> simp [netRepeat, h])
    [Vertex.copy 0 1, Vertex.copy 1 1]

/-- Claim C9: annotate_paths on an empty path list raises an error (the
TypeError from iterating the never-initialized None) and never returns a
classification record. -/
theorem C9_thm : annotate_paths [] = Except.error Err.typeError := rfl

/-- Claim C10: fastest_shortest and shortest_fastest contain each
qualifying path at most once (the tuple-keyed dicts collapse
duplicates), while shortest, fastest and foremost keep one entry per
qualifying input occurrence. -/
theorem C10_thm (paths : List Path) (h1 : paths ≠ [])
    (h2 : ∀ p ∈ paths, p ≠ []) :
    ∃ a, annotate_paths paths = Except.ok a ∧
      a.fastest_shortest.Nodup ∧ a.shortest_fastest.Nodup ∧
      (∀ p : Path, a.shortest.count p = (paths.filter
        (fun q => decide (path_length q = pyMin (paths.map path_length)))).count p) ∧
      (∀ p : Path, a.fastest.count p = (paths.filter
        (fun q => decide (path_duration q = pyMin (paths.map path_duration)))).count p) ∧
      (∀ p : Path, a.foremost.count p = (paths.filter
        (fun q => decide (lastT q = pyMin (paths.map lastT)))).count p) := by
  cases paths with
  | nil => exact absurd rfl h1
  | cons p t =>
    refine ⟨_, annotate_fields p t, ?_, ?_, fun _ => rfl, fun _ => rfl, fun _ => rfl⟩
    · exact (nodup_dedupKeys _).filter _
    · exact (nodup_dedupKeys _).filter _

/-- Claim C10 witness: a duplicated input path appears twice in
shortest but only once in fastest_shortest. -/
theorem C10_witness :
    ∃ a, annotate_paths [[(0, 1, 1)], [(0, 1, 1)]] = Except.ok a ∧
      a.fastest_shortest.Nodup ∧ a.shortest_fastest.Nodup ∧
      (∀ p : Path, a.shortest.count p = ([[(0, 1, 1)], [(0, 1, 1)]].filter
        (fun q => decide (path_length q =
          pyMin ([[(0, 1, 1)], [(0, 1, 1)]].map path_length)))).count p) ∧
      (∀ p : Path, a.fastest.count p = ([[(0, 1, 1)], [(0, 1, 1)]].filter
        (fun q => decide (path_duration q =
          pyMin ([[(0, 1, 1)], [(0, 1, 1)]].map path_duration)))).count p) ∧
      (∀ p : Path, a.foremost.count p = ([[(0, 1, 1)], [(0, 1, 1)]].filter
        (fun q => decide (lastT q =
          pyMin ([[(0, 1, 1)], [(0, 1, 1)]].map lastT)))).count p) :=
  C10_thm [[(0, 1, 1)], [(0, 1, 1)]] (by decide) (by decide)

end DynetxPaths
